import Mathlib

/-!
Verification of the order-lifecycle engine of `bt_lab10/lab.py`.

The development shallowly embeds the engine: Python `Decimal` values become
exact rationals (`ℚ`), the JSON ledger file becomes an explicit file-state
value, remote-exchange calls become oracles passed in explicitly, and each
Python function of the engine is translated into a Lean function of the same
name.  Theorems at the end settle the specification claims.
-/

namespace BTLab

/-! ### String helpers

`upperStr`/`lowerStr` model Python `str.upper()`/`str.lower()` (the strings in
this domain are plain ASCII).  `hasSubstr pat s` models the Python substring
test `pat in s`. -/

def upperStr (s : String) : String := ⟨s.data.map Char.toUpper⟩

def lowerStr (s : String) : String := ⟨s.data.map Char.toLower⟩

def isPrefixChars : List Char → List Char → Bool
  | [], _ => true
  | _ :: _, [] => false
  | p :: ps, c :: cs => p == c && isPrefixChars ps cs

def hasSubChars (pat : List Char) : List Char → Bool
  | [] => pat.isEmpty
  | c :: cs => isPrefixChars pat (c :: cs) || hasSubChars pat cs

def hasSubstr (pat s : String) : Bool := hasSubChars pat.data s.data

/-! ### Quantization (lab.py lines 97-100)

Python: `value.quantize(DECIMAL_STEP, rounding=ROUND_DOWN)` with
`DECIMAL_STEP = Decimal("0.00000001")`.  `ROUND_DOWN` truncates toward zero,
which we model on exact rationals: floor for non-negative arguments and
ceiling for negative ones. -/

def TICK_DEN : ℕ := 100000000

def roundTowardZero (q : ℚ) : ℤ := if 0 ≤ q then ⌊q⌋ else ⌈q⌉

def quantize (value : ℚ) : ℚ := (roundTowardZero (value * TICK_DEN) : ℚ) / TICK_DEN

/-! ### Engine constants (lab.py lines 36-48) -/

def MAX_SYMBOL_PRICE : ℚ := 6 / 10

def AUTO_BUY_DISCOUNTS : List ℚ := [2 / 100, 5 / 100, 8 / 100]

def INTERACTIVE_DISCOUNTS : List ℚ := [2 / 100, 4 / 100, 6 / 100]

def SELL_MARKUP : ℚ := 2 / 100

/-- lab.py lines 645-647. -/
def discount_price (reference discount : ℚ) : ℚ := quantize (reference * (1 - discount))

/-- lab.py lines 649-651. -/
def markup_price (reference markup : ℚ) : ℚ := quantize (reference * (1 + markup))

/-! ### The ledger file (lab.py lines 103-122)

The backing file is modeled at the parse level: `FileState.missing` is an
absent file, `FileState.blank` an existing file whose text is empty or
whitespace-only (the `not raw.strip()` branch of `load_orders`),
`FileState.malformed` an existing file whose text raises `JSONDecodeError`,
and `FileState.wellFormed doc` an existing file whose text parses to the
JSON document `doc`.  `json.dumps`/`json.loads` (Python standard library,
an external collaborator) are assumed to be a faithful printer/parser pair,
so `save_orders` stores the document itself. -/

inductive Json where
  | null
  | str (s : String)
  | num (q : ℚ)
  | bool (b : Bool)
  | arr (items : List Json)
  | obj (fields : List (String × Json))

/-- First-match association lookup, modeling `dict.get` on a parsed JSON
object (objects produced by `save_orders` have unique keys). -/
def lookupKey (key : String) : List (String × Json) → Option Json
  | [] => none
  | (k, v) :: rest => if k == key then some v else lookupKey key rest

inductive FileState where
  | missing
  | blank
  | malformed
  | wellFormed (doc : Json)

/-- lab.py lines 103-115.  Returns the raw value stored under the top-level
`"orders"` key (Python returns it without inspecting it further); a missing
or blank file yields the empty list, a malformed file raises. -/
def load_orders : FileState → Except String Json
  | .missing => .ok (.arr [])
  | .blank => .ok (.arr [])
  | .malformed => .error "Cannot parse ledger file"
  | .wellFormed doc =>
    .ok (match doc with
         | .obj fields => (lookupKey "orders" fields).getD (.arr [])
         | _ => .arr [])

/-- lab.py lines 118-122: the file is rewritten with
`{"orders": [...]}` as its single top-level field. -/
def save_orders (orders : List Json) : FileState :=
  .wellFormed (.obj [("orders", .arr orders)])

def fileExists : FileState → Bool
  | .missing => false
  | _ => true

def isBlankFile : FileState → Bool
  | .blank => true
  | _ => false

def isWellFormedDoc : FileState → Bool
  | .wellFormed _ => true
  | _ => false

/-! ### Order records (lab.py lines 125-140)

Python stores `amount` and `price` as decimal strings for exactness; they
are modeled by the exact rational they denote. -/

structure OrderRecord where
  order_id : String
  symbol : String
  side : String
  amount : ℚ
  price : ℚ
  status : String
  created_at : String
  note : Option String := none
  linked_order_id : Option String := none
deriving DecidableEq

/-- A placement request submitted to the exchange: the arguments of one
`create_limit_order` call after its normalization (`symbol.upper()`,
`side.lower()`, `quantize` on amount and price; lab.py lines 241-244). -/
structure PlaceReq where
  symbol : String
  side : String
  amount : ℚ
  price : ℚ
deriving DecidableEq

/-! ### Adaptive order-placement negotiation (lab.py lines 257-287)

The remote exchange is abstracted as the oracle `submit fsym field`, giving
the outcome of POSTing one order payload with the symbol spelled `fsym` and
the amount carried in the field named `field`; `formatSymbol` abstracts
`_format_symbol` (symbol-cache reconstruction, irrelevant to the loop).
Each call also returns the trace of attempts actually submitted, in order. -/

def UNEXPECTED_PARAM_MSG : String := "Unexpected parameter"

def INVALID_SYMBOL_MSG : String := "Invalid symbol"

/-- Default candidate lists (no environment overrides; lab.py lines 50-75). -/
def SYMBOL_FORMATS : List String := ["dash", "slash", "upper", "lower"]

def ORDER_SIZE_FIELDS : List String := ["quantity", "amount", "volume"]

inductive InnerRes (R : Type) where
  | ok (r : R)
  | toNextFormat (e : String)
  | raised (e : String)
  | exhausted
deriving DecidableEq

inductive NegResult (R : Type) where
  | success (r : R)
  | raised (e : String)
deriving DecidableEq

/-- The inner loop `for idx, size_field in enumerate(ORDER_SIZE_FIELDS)`:
`total` is the length of the full size-field list, `isLastFormat` the test
`fmt == SYMBOL_FORMATS[-1]` of the enclosing iteration.  `.ok` is the
`success = True; break` path, `.toNextFormat` the `break` on an
invalid-symbol rejection, `.raised` the bare `raise`, and `.exhausted` the
loop ending with no attempt made (possible only for an empty field list). -/
def tryFields {R : Type} (submit : String → String → Except String R) (fsym : String)
    (total : ℕ) (isLastFormat : Bool) : ℕ → List String → InnerRes R × List (String × String)
  | _, [] => (.exhausted, [])
  | idx, f :: rest =>
    match submit fsym f with
    | .ok r => (.ok r, [(fsym, f)])
    | .error e =>
      if hasSubstr UNEXPECTED_PARAM_MSG e && decide (idx < total - 1) then
        let t := tryFields submit fsym total isLastFormat (idx + 1) rest
        (t.1, (fsym, f) :: t.2)
      else if hasSubstr INVALID_SYMBOL_MSG e && !isLastFormat then
        (.toNextFormat e, [(fsym, f)])
      else
        (.raised e, [(fsym, f)])

/-- The outer loop `for fmt in SYMBOL_FORMATS`, threading `last_error`.
After the loops, `response is None and last_error` re-raises the last
error, and a generic failure is raised when no attempt was ever made. -/
def tryFormats {R : Type} (submit : String → String → Except String R)
    (formatSymbol : String → String) (fields : List String) (lastFormat : Option String)
    (lastError : Option String) : List String → NegResult R × List (String × String)
  | [] =>
    (match lastError with
     | some e => .raised e
     | none => .raised "Failed to place order: unknown error", [])
  | fmt :: rest =>
    let fsym := formatSymbol fmt
    let t := tryFields submit fsym fields.length (lastFormat == some fmt) 0 fields
    match t.1 with
    | .ok r => (.success r, t.2)
    | .raised e => (.raised e, t.2)
    | .toNextFormat e =>
      let u := tryFormats submit formatSymbol fields lastFormat (some e) rest
      (u.1, t.2 ++ u.2)
    | .exhausted =>
      let u := tryFormats submit formatSymbol fields lastFormat lastError rest
      (u.1, t.2 ++ u.2)

/-- The negotiation core of `create_limit_order` (online path,
lab.py lines 257-287), with the source candidate lists. -/
def create_limit_order_negotiation {R : Type} (submit : String → String → Except String R)
    (formatSymbol : String → String) : NegResult R × List (String × String) :=
  tryFormats submit formatSymbol ORDER_SIZE_FIELDS SYMBOL_FORMATS.getLast? none SYMBOL_FORMATS

/-- An attempt whose rejection message matches one of the two recognized
retry patterns of the negotiation loop. -/
def RecogAttempt {R : Type} (submit : String → String → Except String R)
    (p : String × String) : Prop :=
  ∃ e, submit p.1 p.2 = Except.error e ∧
    (hasSubstr UNEXPECTED_PARAM_MSG e = true ∨ hasSubstr INVALID_SYMBOL_MSG e = true)

/-! ### The exchange oracle and reconciliation (lab.py lines 592-643)

`Env` packages the view one run has of the remote exchange: `statusOf` is
`get_order_status`, `createResp` gives, for the `k`-th `create_limit_order`
call of the run, the extracted order id (`_extract_order_id`, always truthy
on success) and the response status field; `balance`, `bestBid` are the
balance and best-bid queries; `now` is `iso_now()`. -/

structure Env where
  statusOf : String → String
  createResp : ℕ → String × String
  balance : ℚ
  bestBid : ℚ
  now : String

/-- Python truthiness of the stored linked-order reference:
`not entry.get("linked_order_id")` is true for `None` and `""`. -/
def linkFalsy : Option String → Bool
  | none => true
  | some s => s == ""

/-- The note f-string of the synthesized sell order (numeric interpolation
of the fixed 2-percent markup elided from the text). -/
def sellNote (buyId : String) : String := "Sell order markup over buy " ++ buyId

/-- The note f-string of a placed buy order (numeric interpolation of the
discount elided from the text). -/
def buyNote : String := "Buy order below best bid"

/-- The linked-sell trigger of `_sync_orders` (lab.py lines 609-613),
evaluated on an entry before this run touches it: the polled status is
`FILLED`, the side is `buy`, and no linked-order reference is set. -/
def trigB (env : Env) (e : OrderRecord) : Bool :=
  lowerStr e.side == "buy" && upperStr (env.statusOf e.order_id) == "FILLED"
    && linkFalsy e.linked_order_id

/-- The sell record synthesized for filled buy `e` by the `k`-th
`create_limit_order` call of the run (lab.py lines 614-631). -/
def sellRecordFor (env : Env) (k : ℕ) (e : OrderRecord) : OrderRecord :=
  { order_id := (env.createResp k).1, symbol := e.symbol, side := "sell",
    amount := quantize e.amount, price := markup_price e.price SELL_MARKUP,
    status := upperStr (env.createResp k).2, created_at := env.now,
    note := some (sellNote e.order_id), linked_order_id := some e.order_id }

/-- The placement request issued for that sell. -/
def sellReqFor (e : OrderRecord) : PlaceReq :=
  ⟨upperStr e.symbol, "sell", quantize e.amount,
   quantize (markup_price e.price SELL_MARKUP)⟩

/-- How `_sync_orders` leaves a non-triggering entry: only the status field
is refreshed from the poll. -/
def entryPlain (env : Env) (e : OrderRecord) : OrderRecord :=
  { e with status := upperStr (env.statusOf e.order_id) }

/-- How `_sync_orders` leaves a triggering buy entry: the status is
refreshed and the linked-order reference is set to the id of the sell
created by the `k`-th placement of the run. -/
def entryTrig (env : Env) (k : ℕ) (e : OrderRecord) : OrderRecord :=
  { e with status := upperStr (env.statusOf e.order_id),
           linked_order_id := some (env.createResp k).1 }

/-- Relation between a ledger entry `e` and its image `e'` after one
`_sync_orders` pass whose synthesized sells are `sells` and whose placement
counters stay below `maxIdx`: every field except status and link is
untouched, the status becomes the polled one, the link is untouched unless
the entry triggered, in which case it names one of the synthesized sells. -/
structure PairRel (env : Env) (sells : List OrderRecord) (maxIdx : ℕ)
    (e e' : OrderRecord) : Prop where
  idEq : e'.order_id = e.order_id
  sideEq : e'.side = e.side
  symbolEq : e'.symbol = e.symbol
  amountEq : e'.amount = e.amount
  priceEq : e'.price = e.price
  createdEq : e'.created_at = e.created_at
  noteEq : e'.note = e.note
  statusEq : e'.status = upperStr (env.statusOf e.order_id)
  linkPlain : trigB env e = false → e'.linked_order_id = e.linked_order_id
  linkTrig : trigB env e = true → ∃ j, j < maxIdx ∧
    e'.linked_order_id = some (env.createResp j).1 ∧
    ∃ s ∈ sells, s.order_id = (env.createResp j).1 ∧ lowerStr s.side = "sell"

/-- Result of the `_sync_orders` loop body on one ledger entry. -/
structure SyncStep where
  entry : OrderRecord
  sell : Option OrderRecord
  req : Option PlaceReq
  changed : Bool
  next : ℕ

/-- One iteration of the `for entry in orders` loop of `_sync_orders`
(lab.py lines 602-637): poll the status, update it in place if it changed,
and synthesize a linked sell when the trigger condition holds.  `k` counts
the `create_limit_order` calls already made during this run. -/
def syncOne (env : Env) (e : OrderRecord) (k : ℕ) : SyncStep :=
  let status := upperStr (env.statusOf e.order_id)
  let changed := status != e.status
  let entry := if status != e.status then { e with status := status } else e
  if lowerStr entry.side == "buy" && status == "FILLED"
      && linkFalsy entry.linked_order_id then
    let sell_price := markup_price entry.price SELL_MARKUP
    let resp := env.createResp k
    ⟨{ entry with linked_order_id := some resp.1 },
     some { order_id := resp.1, symbol := entry.symbol, side := "sell",
            amount := quantize entry.amount, price := sell_price,
            status := upperStr resp.2, created_at := env.now,
            note := some (sellNote entry.order_id),
            linked_order_id := some entry.order_id },
     some ⟨upperStr entry.symbol, "sell", quantize entry.amount, quantize sell_price⟩,
     true, k + 1⟩
  else ⟨entry, none, none, changed, k⟩

/-- Accumulated result of the `_sync_orders` loop. -/
structure SyncRun where
  entries : List OrderRecord
  sells : List OrderRecord
  reqs : List PlaceReq
  changed : Bool
  next : ℕ

/-- The full `for entry in orders` loop, in stored order. -/
def syncEntries (env : Env) : List OrderRecord → ℕ → SyncRun
  | [], k => ⟨[], [], [], false, k⟩
  | e :: rest, k =>
    let s := syncOne env e k
    let r := syncEntries env rest s.next
    ⟨s.entry :: r.entries, s.sell.toList ++ r.sells, s.req.toList ++ r.reqs,
     s.changed || r.changed, r.next⟩

/-- `_sync_orders` (lab.py lines 592-643): an empty ledger is left alone;
otherwise the loop runs, the sell records are appended, and the file is
rewritten only when something changed.  Returns the resulting file
contents, the placement requests issued, and the final call counter. -/
def sync_orders (env : Env) (orders : List OrderRecord) (k : ℕ) :
    List OrderRecord × List PlaceReq × ℕ :=
  if orders.isEmpty then (orders, [], k)
  else
    let r := syncEntries env orders k
    (if r.changed then r.entries ++ r.sells else orders, r.reqs, r.next)

/-- The ledger-file contents after one reconciliation run started with a
fresh client (call counter 0). -/
def sync_ledger (env : Env) (orders : List OrderRecord) : List OrderRecord :=
  (sync_orders env orders 0).1

/-- `_place_buy_orders` (lab.py lines 519-552): one limit buy per discount,
at the quantized discounted price, each recorded locally with the id and
status extracted from the exchange response. -/
def place_buy_orders (env : Env) (symbol : String) (reference amt : ℚ) :
    List ℚ → ℕ → List OrderRecord × List PlaceReq × ℕ
  | [], k => ([], [], k)
  | d :: rest, k =>
    let target := discount_price reference d
    let resp := env.createResp k
    let record : OrderRecord :=
      { order_id := resp.1, symbol := symbol, side := "buy",
        amount := quantize amt, price := target, status := upperStr resp.2,
        created_at := env.now, note := some buyNote, linked_order_id := none }
    let rest' := place_buy_orders env symbol reference amt rest (k + 1)
    (record :: rest'.1, ⟨upperStr symbol, "buy", quantize amt, quantize target⟩ :: rest'.2.1,
     rest'.2.2)

/-- `run_auto` (lab.py lines 433-467): check the balance and best bid,
abort if the bid breaks the 0.6 constraint or the balance cannot cover the
three discounted buys, otherwise place them, append the records to the
ledger, and reconcile.  Returns the outcome, every placement request issued
during the run, and the final ledger-file contents. -/
def run_auto (env : Env) (symbol : String) (amount : Option ℚ)
    (ledger : List OrderRecord) :
    Except String Unit × List PlaceReq × List OrderRecord :=
  match amount with
  | none => (.error "--amount is required for auto mode", [], ledger)
  | some amt =>
    let available := env.balance
    let best_bid := env.bestBid
    if MAX_SYMBOL_PRICE ≤ best_bid then
      (.error "The asset price exceeds the 0.6 USDT constraint.", [], ledger)
    else
      let required := (AUTO_BUY_DISCOUNTS.map fun d => discount_price best_bid d * amt).sum
      if available < required then
        (.error "Not enough USDT balance to cover the required total.", [], ledger)
      else
        let sym := upperStr symbol
        let placed := place_buy_orders env sym best_bid amt AUTO_BUY_DISCOUNTS 0
        let ledger1 := ledger ++ placed.1
        let synced := sync_orders env ledger1 placed.2.2
        (.ok (), placed.2.1 ++ synced.2.1, synced.1)

/-- One buy iteration of `interactive_menu` after a choice in 1-3
(lab.py lines 496-509).  When `_prompt_amount` returns `None` the iteration
prints a cancellation note and `continue`s; the source nests the
`_place_buy_orders` / `_append_records` / `_sync_orders` statements inside
that same `if amount is None:` block *after* the `continue`, so they can
never execute.  When an amount is entered the `if`-body is skipped and the
iteration body simply ends.  Either way no request is issued and the ledger
file is untouched. -/
def interactive_buy_choice (_env : Env) (ledger : List OrderRecord)
    (_discount : ℚ) (amount : Option ℚ) : List OrderRecord × List PlaceReq :=
  match amount with
  | none => (ledger, [])
  | some _ => (ledger, [])

/-! ### Claim-level predicates for the reconciliation invariant -/

def idsOf (L : List OrderRecord) : List String := L.map fun r => r.order_id

/-- The sell records of `L` whose linked-order reference names `buyId`. -/
def sellsLinkedTo (L : List OrderRecord) (buyId : String) : List OrderRecord :=
  L.filter fun r => lowerStr r.side == "sell" && r.linked_order_id == some buyId

/-- The ledger invariant: order ids are distinct; a linked buy points to a
sell record present in the same ledger; and every buy has exactly as many
linked sells as its linked-order reference says (one when set, zero when
unset). -/
def LedgerInv (L : List OrderRecord) : Prop :=
  (idsOf L).Nodup ∧
  (∀ r ∈ L, lowerStr r.side = "buy" → linkFalsy r.linked_order_id = false →
    ∃ s ∈ L, lowerStr s.side = "sell" ∧ some s.order_id = r.linked_order_id) ∧
  (∀ r ∈ L, lowerStr r.side = "buy" →
    (sellsLinkedTo L r.order_id).length = if linkFalsy r.linked_order_id then 0 else 1)

/-- Freshness of the exchange-assigned order ids one run can consume: the
run makes at most `L.length` placements, and each extracted id is truthy
(`_extract_order_id` skips falsy candidates), distinct from every stored
id, and distinct from the other ids handed out during the run. -/
def FreshFor (env : Env) (L : List OrderRecord) : Prop :=
  ∀ j, j < L.length →
    (env.createResp j).1 ∉ idsOf L ∧ (env.createResp j).1 ≠ "" ∧
    ∀ i, i < j → (env.createResp i).1 ≠ (env.createResp j).1

/-- Freshness along a whole sequence of reconciliation runs. -/
def FreshRuns : List Env → List OrderRecord → Prop
  | [], _ => True
  | env :: rest, L => FreshFor env L ∧ FreshRuns rest (sync_ledger env L)

/-- The ledger-file contents after a sequence of reconciliation runs. -/
def runsFold (runs : List Env) (L : List OrderRecord) : List OrderRecord :=
  runs.foldl (fun acc env => sync_ledger env acc) L

/-! ### Concrete instances used by witnesses and counterexamples -/

def cexMsg : String := "ATAIX rejected the request: Unexpected parameter quantity"

def cexSubmit : String → String → Except String Unit := fun _ _ => .error cexMsg

def wEnvNew : Env :=
  { statusOf := fun _ => "NEW", createResp := fun k => (Nat.repr k, "NEW"),
    balance := 1000, bestBid := 1 / 2, now := "2025-01-01T00:00:00Z" }

def wEnvFilled : Env :=
  { statusOf := fun _ => "FILLED", createResp := fun _ => ("s1", "NEW"),
    balance := 1000, bestBid := 1 / 2, now := "2025-01-02T00:00:00Z" }

def wEnvBid62 : Env :=
  { statusOf := fun _ => "NEW", createResp := fun k => (Nat.repr k, "NEW"),
    balance := 1000, bestBid := 62 / 100, now := "2025-01-01T00:00:00Z" }

def wBuy : OrderRecord :=
  { order_id := "b1", symbol := "LTCUSDT", side := "buy", amount := 10,
    price := 1 / 2, status := "NEW", created_at := "2025-01-01T00:00:00Z",
    note := none, linked_order_id := none }

/-! ### Quantization lemmas -/

theorem quantize_nonneg_eq_floor (x : ℚ) (hx : 0 ≤ x) :
    quantize x = (⌊x * TICK_DEN⌋ : ℚ) / TICK_DEN := by
  have h : (0 : ℚ) ≤ x * TICK_DEN := by positivity
  simp [quantize, roundTowardZero, h]

/-- C4: for every non-negative decimal `x`, `quantize x` is the largest
multiple of the tick size `10 ^ (-8)` that does not exceed `x`; quantization
is idempotent and never exceeds its argument, and it is total (no error
condition) on the exact rationals of the model. -/
theorem quantize_spec (x : ℚ) (hx : 0 ≤ x) :
    quantize x ≤ x ∧
    (∃ k : ℤ, quantize x = (k : ℚ) / TICK_DEN) ∧
    (∀ k : ℤ, (k : ℚ) / TICK_DEN ≤ x → (k : ℚ) / TICK_DEN ≤ quantize x) ∧
    quantize (quantize x) = quantize x := by
  have hB : (0 : ℚ) < TICK_DEN := by norm_num [TICK_DEN]
  have hq := quantize_nonneg_eq_floor x hx
  have hfx : (0 : ℚ) ≤ x * TICK_DEN := by positivity
  refine ⟨?_, ⟨⌊x * TICK_DEN⌋, hq⟩, ?_, ?_⟩
  · rw [hq, div_le_iff hB]
    calc ((⌊x * TICK_DEN⌋ : ℚ)) ≤ x * TICK_DEN := Int.floor_le _
      _ = x * TICK_DEN := rfl
  · intro k hk
    rw [hq]
    have hk' : (k : ℚ) ≤ x * TICK_DEN := by rwa [div_le_iff hB] at hk
    have : k ≤ ⌊x * TICK_DEN⌋ := Int.le_floor.mpr hk'
    gcongr
  · have hqnn : (0 : ℚ) ≤ quantize x := by
      rw [hq]
      have : (0 : ℤ) ≤ ⌊x * TICK_DEN⌋ := Int.floor_nonneg.mpr hfx
      positivity
    rw [quantize_nonneg_eq_floor _ hqnn, hq]
    rw [div_mul_cancel₀ _ (ne_of_gt hB)]
    rw [Int.floor_intCast]

/-- Witness for `quantize_spec` at the concrete input `3 / 2`. -/
theorem quantize_spec_witness :
    quantize (3 / 2) ≤ (3 / 2 : ℚ) ∧
    (∃ k : ℤ, quantize (3 / 2) = (k : ℚ) / TICK_DEN) ∧
    (∀ k : ℤ, (k : ℚ) / TICK_DEN ≤ (3 / 2 : ℚ) → (k : ℚ) / TICK_DEN ≤ quantize (3 / 2)) ∧
    quantize (quantize (3 / 2)) = quantize (3 / 2) :=
  quantize_spec (3 / 2) (by norm_num)

/-! ### Ledger round-trip and corruption behaviour -/

/-- C5: saving any sequence of order records and loading it back returns
exactly the saved sequence in insertion order, and loading a missing file
returns the empty sequence without error. -/
theorem ledger_round_trip :
    (∀ records : List Json,
      load_orders (save_orders records) = Except.ok (Json.arr records)) ∧
    load_orders FileState.missing = Except.ok (Json.arr []) := by
  refine ⟨fun records => ?_, rfl⟩
  simp [load_orders, save_orders, lookupKey]

/-- C6 counterexample: a whitespace-only ledger file exists and is not
well-formed structured data, yet `load_orders` succeeds with the empty
sequence instead of failing with the corruption error. -/
theorem load_orders_blank_cex :
    fileExists FileState.blank = true ∧ isWellFormedDoc FileState.blank = false ∧
    load_orders FileState.blank = Except.ok (Json.arr []) :=
  ⟨rfl, rfl, rfl⟩

/-- C6 amended: `load_orders` fails with the ledger-corruption error exactly
when the backing file exists, is not blank (empty or whitespace-only), and
its contents are not well-formed structured data; a missing file and a
blank existing file both yield the empty sequence instead. -/
theorem load_orders_error_iff (f : FileState) :
    (∃ e, load_orders f = Except.error e) ↔
      fileExists f = true ∧ isBlankFile f = false ∧ isWellFormedDoc f = false := by
  cases f <;> simp [load_orders, fileExists, isBlankFile, isWellFormedDoc]

/-! ### Auto-run scenarios -/

/-- C7: when the best bid is `0.62` and the maximum-price constraint is
`0.6`, the scripted run aborts by raising before any order-placement
request is issued, and the ledger file is unchanged. -/
theorem run_auto_price_constraint (env : Env) (symbol : String) (amount : Option ℚ)
    (ledger : List OrderRecord) (hbid : env.bestBid = 62 / 100) :
    (run_auto env symbol amount ledger).2.1 = [] ∧
    (run_auto env symbol amount ledger).2.2 = ledger ∧
    ∃ e, (run_auto env symbol amount ledger).1 = Except.error e := by
  cases amount with
  | none => simp [run_auto]
  | some amt =>
    have h : MAX_SYMBOL_PRICE ≤ env.bestBid := by
      rw [hbid]; norm_num [MAX_SYMBOL_PRICE]
    simp [run_auto, h]

/-- Witness for `run_auto_price_constraint` at a concrete environment. -/
theorem run_auto_price_constraint_witness :
    (run_auto wEnvBid62 "LTCUSDT" (some 10) []).2.1 = [] ∧
    (run_auto wEnvBid62 "LTCUSDT" (some 10) []).2.2 = [] ∧
    ∃ e, (run_auto wEnvBid62 "LTCUSDT" (some 10) []).1 = Except.error e :=
  run_auto_price_constraint wEnvBid62 "LTCUSDT" (some 10) [] rfl

/-! ### Interactive-menu buy path -/

/-- C10: in the interactive menu, choosing buy action 1, 2 or 3 and then
entering a valid positive amount places no order and leaves the ledger file
unchanged: the placement, append and reconciliation statements of the
source are nested after the `continue` of the amount-is-None branch and are
unreachable. -/
theorem interactive_buy_no_effect (env : Env) (ledger : List OrderRecord)
    (choice : Fin 3) (a : ℚ) (ha : 0 < a) :
    interactive_buy_choice env ledger (INTERACTIVE_DISCOUNTS.getD choice.val 0) (some a)
      = (ledger, []) := rfl

/-- Witness for `interactive_buy_no_effect` with choice 1 and amount 1. -/
theorem interactive_buy_no_effect_witness :
    interactive_buy_choice wEnvNew [] (INTERACTIVE_DISCOUNTS.getD (0 : Fin 3).val 0) (some 1)
      = ([], []) :=
  interactive_buy_no_effect wEnvNew [] 0 1 (by norm_num)

/-! ### Negotiation: boundedness and retry classification -/

theorem mem_dropLast_append {α : Type _} {p : α} {l1 l2 : List α}
    (h : p ∈ (l1 ++ l2).dropLast) :
    p ∈ l1.dropLast ∨ (l2 ≠ [] ∧ p ∈ l1) ∨ p ∈ l2.dropLast := by
  cases l2 with
  | nil => rw [List.append_nil] at h; exact Or.inl h
  | cons b l2' =>
    rw [List.dropLast_append_cons] at h
    rcases List.mem_append.mp h with h1 | h2
    · exact Or.inr (Or.inl ⟨by simp, h1⟩)
    · exact Or.inr (Or.inr h2)

theorem tryFields_trace_length {R : Type} (submit : String → String → Except String R)
    (fsym : String) (total : ℕ) (isLastFormat : Bool) :
    ∀ (fields : List String) (idx : ℕ),
      (tryFields submit fsym total isLastFormat idx fields).2.length ≤ fields.length := by
  intro fields
  induction fields with
  | nil => intro idx; simp [tryFields]
  | cons f rest ih =>
    intro idx
    cases hs : submit fsym f with
    | ok r => simp [tryFields, hs]
    | error e =>
      by_cases h1 : (hasSubstr UNEXPECTED_PARAM_MSG e && decide (idx < total - 1)) = true
      · simpa [tryFields, hs, h1] using ih (idx + 1)
      · by_cases h2 : (hasSubstr INVALID_SYMBOL_MSG e && !isLastFormat) = true
        · simp [tryFields, hs, h1, h2]
        · simp [tryFields, hs, h1, h2]

theorem tryFields_dropLast_recog {R : Type} (submit : String → String → Except String R)
    (fsym : String) (total : ℕ) (isLastFormat : Bool) :
    ∀ (fields : List String) (idx : ℕ),
      ∀ p ∈ ((tryFields submit fsym total isLastFormat idx fields).2).dropLast,
        RecogAttempt submit p := by
  intro fields
  induction fields with
  | nil => intro idx p hp; simp [tryFields] at hp
  | cons f rest ih =>
    intro idx p hp
    cases hs : submit fsym f with
    | ok r => simp [tryFields, hs] at hp
    | error e =>
      by_cases h1 : (hasSubstr UNEXPECTED_PARAM_MSG e && decide (idx < total - 1)) = true
      · have hres : (tryFields submit fsym total isLastFormat idx (f :: rest)).2
            = (fsym, f) :: (tryFields submit fsym total isLastFormat (idx + 1) rest).2 := by
          simp [tryFields, hs, h1]
        rw [hres] at hp
        cases ht : (tryFields submit fsym total isLastFormat (idx + 1) rest).2 with
        | nil => rw [ht] at hp; simp at hp
        | cons q qs =>
          rw [ht, List.dropLast_cons₂] at hp
          rcases List.mem_cons.mp hp with hp0 | hp1
          · subst hp0
            rw [Bool.and_eq_true] at h1
            exact ⟨e, hs, Or.inl h1.1⟩
          · exact ih (idx + 1) p (by rw [ht]; exact hp1)
      · by_cases h2 : (hasSubstr INVALID_SYMBOL_MSG e && !isLastFormat) = true
        · simp [tryFields, hs, h1, h2] at hp
        · simp [tryFields, hs, h1, h2] at hp

theorem tryFields_toNextFormat_recog {R : Type} (submit : String → String → Except String R)
    (fsym : String) (total : ℕ) (isLastFormat : Bool) :
    ∀ (fields : List String) (idx : ℕ) (e : String),
      (tryFields submit fsym total isLastFormat idx fields).1 = InnerRes.toNextFormat e →
      ∀ p ∈ (tryFields submit fsym total isLastFormat idx fields).2,
        RecogAttempt submit p := by
  intro fields
  induction fields with
  | nil => intro idx e hres; simp [tryFields] at hres
  | cons f rest ih =>
    intro idx e hres p hp
    cases hs : submit fsym f with
    | ok r => simp [tryFields, hs] at hres
    | error e0 =>
      by_cases h1 : (hasSubstr UNEXPECTED_PARAM_MSG e0 && decide (idx < total - 1)) = true
      · rw [tryFields] at hres hp
        simp only [hs, h1, if_true] at hres hp
        rcases List.mem_cons.mp hp with hp0 | hp1
        · subst hp0
          rw [Bool.and_eq_true] at h1
          exact ⟨e0, hs, Or.inl h1.1⟩
        · exact ih (idx + 1) e hres p hp1
      · by_cases h2 : (hasSubstr INVALID_SYMBOL_MSG e0 && !isLastFormat) = true
        · have heq : tryFields submit fsym total isLastFormat idx (f :: rest)
              = (InnerRes.toNextFormat e0, [(fsym, f)]) := by
            rw [tryFields]
            simp only [hs]
            rw [if_neg h1, if_pos h2]
          rw [heq] at hp
          simp at hp
          subst hp
          rw [Bool.and_eq_true] at h2
          exact ⟨e0, hs, Or.inr h2.1⟩
        · simp [tryFields, hs, h1, h2] at hres

theorem tryFields_exhausted_nil {R : Type} (submit : String → String → Except String R)
    (fsym : String) (total : ℕ) (isLastFormat : Bool) :
    ∀ (fields : List String) (idx : ℕ), idx + fields.length = total →
      (tryFields submit fsym total isLastFormat idx fields).1 = InnerRes.exhausted →
      fields = [] := by
  intro fields
  induction fields with
  | nil => intro idx _ _; rfl
  | cons f rest ih =>
    intro idx hlen hres
    exfalso
    cases hs : submit fsym f with
    | ok r => simp [tryFields, hs] at hres
    | error e0 =>
      by_cases h1 : (hasSubstr UNEXPECTED_PARAM_MSG e0 && decide (idx < total - 1)) = true
      · rw [tryFields] at hres
        simp only [hs, h1, if_true] at hres
        have hrest : rest = [] := ih (idx + 1) (by simp at hlen ⊢; omega) hres
        subst hrest
        simp only [List.length_cons, List.length_nil] at hlen
        rw [Bool.and_eq_true] at h1
        have := of_decide_eq_true h1.2
        omega
      · by_cases h2 : (hasSubstr INVALID_SYMBOL_MSG e0 && !isLastFormat) = true
        · simp [tryFields, hs, h1, h2] at hres
        · simp [tryFields, hs, h1, h2] at hres

theorem tryFormats_trace_length {R : Type} (submit : String → String → Except String R)
    (formatSymbol : String → String) (fields : List String) (lastFormat : Option String) :
    ∀ (formats : List String) (lastError : Option String),
      (tryFormats submit formatSymbol fields lastFormat lastError formats).2.length
        ≤ formats.length * fields.length := by
  intro formats
  induction formats with
  | nil => intro lastError; cases lastError <;> simp [tryFormats]
  | cons fmt rest ih =>
    intro lastError
    have hinner := tryFields_trace_length submit (formatSymbol fmt) fields.length
        (lastFormat == some fmt) fields 0
    rw [tryFormats]
    cases hres : (tryFields submit (formatSymbol fmt) fields.length
        (lastFormat == some fmt) 0 fields).1 with
    | ok r =>
      simp only [hres]
      calc (tryFields submit (formatSymbol fmt) fields.length
              (lastFormat == some fmt) 0 fields).2.length
          ≤ fields.length := hinner
        _ ≤ (rest.length + 1) * fields.length := by nlinarith [Nat.zero_le (rest.length * fields.length)]
    | raised e =>
      simp only [hres]
      calc (tryFields submit (formatSymbol fmt) fields.length
              (lastFormat == some fmt) 0 fields).2.length
          ≤ fields.length := hinner
        _ ≤ (rest.length + 1) * fields.length := by nlinarith [Nat.zero_le (rest.length * fields.length)]
    | toNextFormat e =>
      simp only [hres, List.length_append]
      have := ih (some e)
      calc (tryFields submit (formatSymbol fmt) fields.length
              (lastFormat == some fmt) 0 fields).2.length
            + (tryFormats submit formatSymbol fields lastFormat (some e) rest).2.length
          ≤ fields.length + rest.length * fields.length := Nat.add_le_add hinner this
        _ = (rest.length + 1) * fields.length := by ring
    | exhausted =>
      simp only [hres, List.length_append]
      have := ih lastError
      calc (tryFields submit (formatSymbol fmt) fields.length
              (lastFormat == some fmt) 0 fields).2.length
            + (tryFormats submit formatSymbol fields lastFormat lastError rest).2.length
          ≤ fields.length + rest.length * fields.length := Nat.add_le_add hinner this
        _ = (rest.length + 1) * fields.length := by ring

theorem tryFormats_dropLast_recog {R : Type} (submit : String → String → Except String R)
    (formatSymbol : String → String) (fields : List String) (lastFormat : Option String) :
    ∀ (formats : List String) (lastError : Option String),
      ∀ p ∈ (tryFormats submit formatSymbol fields lastFormat lastError formats).2.dropLast,
        RecogAttempt submit p := by
  intro formats
  induction formats with
  | nil => intro lastError p hp; cases lastError <;> simp [tryFormats] at hp
  | cons fmt rest ih =>
    intro lastError p hp
    rw [tryFormats] at hp
    cases hres : (tryFields submit (formatSymbol fmt) fields.length
        (lastFormat == some fmt) 0 fields).1 with
    | ok r =>
      rw [hres] at hp
      exact tryFields_dropLast_recog submit (formatSymbol fmt) fields.length
        (lastFormat == some fmt) fields 0 p hp
    | raised e =>
      rw [hres] at hp
      exact tryFields_dropLast_recog submit (formatSymbol fmt) fields.length
        (lastFormat == some fmt) fields 0 p hp
    | toNextFormat e =>
      rw [hres] at hp
      rcases mem_dropLast_append hp with h | ⟨_, h⟩ | h
      · exact tryFields_dropLast_recog submit (formatSymbol fmt) fields.length
          (lastFormat == some fmt) fields 0 p h
      · exact tryFields_toNextFormat_recog submit (formatSymbol fmt) fields.length
          (lastFormat == some fmt) fields 0 e hres p h
      · exact ih (some e) p h
    | exhausted =>
      rw [hres] at hp
      have hnil : fields = [] := tryFields_exhausted_nil submit (formatSymbol fmt)
        fields.length (lastFormat == some fmt) fields 0 (by simp) hres
      subst hnil
      exact ih lastError p hp

theorem tryFields_neither_raises {R : Type} (submit : String → String → Except String R)
    (fsym : String) (total : ℕ) (isLastFormat : Bool) :
    ∀ (fields : List String) (idx : ℕ),
      ∀ p ∈ (tryFields submit fsym total isLastFormat idx fields).2, ∀ e,
        submit p.1 p.2 = Except.error e →
        hasSubstr UNEXPECTED_PARAM_MSG e = false →
        hasSubstr INVALID_SYMBOL_MSG e = false →
        (tryFields submit fsym total isLastFormat idx fields).1 = InnerRes.raised e := by
  intro fields
  induction fields with
  | nil => intro idx p hp; simp [tryFields] at hp
  | cons f rest ih =>
    intro idx p hp e hpe hnu hni
    cases hs : submit fsym f with
    | ok r =>
      have hp' : p = (fsym, f) := by simpa [tryFields, hs] using hp
      subst hp'
      rw [hs] at hpe
      cases hpe
    | error e0 =>
      by_cases h1 : (hasSubstr UNEXPECTED_PARAM_MSG e0 && decide (idx < total - 1)) = true
      · have hres2 : (tryFields submit fsym total isLastFormat idx (f :: rest)).2
            = (fsym, f) :: (tryFields submit fsym total isLastFormat (idx + 1) rest).2 := by
          simp [tryFields, hs, h1]
        have hres1 : (tryFields submit fsym total isLastFormat idx (f :: rest)).1
            = (tryFields submit fsym total isLastFormat (idx + 1) rest).1 := by
          simp [tryFields, hs, h1]
        rw [hres2] at hp
        rw [hres1]
        rcases List.mem_cons.mp hp with hp0 | hp1
        · subst hp0
          rw [hs] at hpe
          injection hpe with he
          rw [Bool.and_eq_true] at h1
          rw [he] at h1
          exact (nomatch hnu.symm.trans h1.1)
        · exact ih (idx + 1) p hp1 e hpe hnu hni
      · by_cases h2 : (hasSubstr INVALID_SYMBOL_MSG e0 && !isLastFormat) = true
        · have heq : tryFields submit fsym total isLastFormat idx (f :: rest)
              = (InnerRes.toNextFormat e0, [(fsym, f)]) := by
            rw [tryFields]
            simp only [hs]
            rw [if_neg h1, if_pos h2]
          rw [heq] at hp
          have hp' : p = (fsym, f) := by simpa using hp
          subst hp'
          rw [hs] at hpe
          injection hpe with he
          rw [Bool.and_eq_true] at h2
          rw [he] at h2
          exact (nomatch hni.symm.trans h2.1)
        · have heq : tryFields submit fsym total isLastFormat idx (f :: rest)
              = (InnerRes.raised e0, [(fsym, f)]) := by
            rw [tryFields]
            simp only [hs]
            rw [if_neg h1, if_neg h2]
          rw [heq] at hp ⊢
          have hp' : p = (fsym, f) := by simpa using hp
          subst hp'
          rw [hs] at hpe
          injection hpe with he
          rw [he]

theorem tryFormats_neither_raises {R : Type} (submit : String → String → Except String R)
    (formatSymbol : String → String) (fields : List String) (lastFormat : Option String) :
    ∀ (formats : List String) (lastError : Option String),
      ∀ p ∈ (tryFormats submit formatSymbol fields lastFormat lastError formats).2, ∀ e,
        submit p.1 p.2 = Except.error e →
        hasSubstr UNEXPECTED_PARAM_MSG e = false →
        hasSubstr INVALID_SYMBOL_MSG e = false →
        (tryFormats submit formatSymbol fields lastFormat lastError formats).1
          = NegResult.raised e := by
  intro formats
  induction formats with
  | nil => intro lastError p hp; cases lastError <;> simp [tryFormats] at hp
  | cons fmt rest ih =>
    intro lastError p hp e hpe hnu hni
    cases hres : (tryFields submit (formatSymbol fmt) fields.length
        (lastFormat == some fmt) 0 fields).1 with
    | ok r =>
      rw [tryFormats] at hp
      rw [hres] at hp
      have hinner := tryFields_neither_raises submit (formatSymbol fmt) fields.length
        (lastFormat == some fmt) fields 0 p hp e hpe hnu hni
      rw [hres] at hinner
      cases hinner
    | raised e0 =>
      have heq : tryFormats submit formatSymbol fields lastFormat lastError (fmt :: rest)
          = (NegResult.raised e0,
             (tryFields submit (formatSymbol fmt) fields.length
               (lastFormat == some fmt) 0 fields).2) := by
        rw [tryFormats, hres]
      rw [heq] at hp ⊢
      have hinner := tryFields_neither_raises submit (formatSymbol fmt) fields.length
        (lastFormat == some fmt) fields 0 p hp e hpe hnu hni
      rw [hres] at hinner
      injection hinner with he
      rw [he]
    | toNextFormat e0 =>
      have heq : tryFormats submit formatSymbol fields lastFormat lastError (fmt :: rest)
          = ((tryFormats submit formatSymbol fields lastFormat (some e0) rest).1,
             (tryFields submit (formatSymbol fmt) fields.length
                 (lastFormat == some fmt) 0 fields).2
               ++ (tryFormats submit formatSymbol fields lastFormat (some e0) rest).2) := by
        rw [tryFormats, hres]
      rw [heq] at hp ⊢
      rcases List.mem_append.mp hp with hp1 | hp2
      · have hinner := tryFields_neither_raises submit (formatSymbol fmt) fields.length
          (lastFormat == some fmt) fields 0 p hp1 e hpe hnu hni
        rw [hres] at hinner
        cases hinner
      · exact ih (some e0) p hp2 e hpe hnu hni
    | exhausted =>
      have heq : tryFormats submit formatSymbol fields lastFormat lastError (fmt :: rest)
          = ((tryFormats submit formatSymbol fields lastFormat lastError rest).1,
             (tryFields submit (formatSymbol fmt) fields.length
                 (lastFormat == some fmt) 0 fields).2
               ++ (tryFormats submit formatSymbol fields lastFormat lastError rest).2) := by
        rw [tryFormats, hres]
      rw [heq] at hp ⊢
      rcases List.mem_append.mp hp with hp1 | hp2
      · have hinner := tryFields_neither_raises submit (formatSymbol fmt) fields.length
          (lastFormat == some fmt) fields 0 p hp1 e hpe hnu hni
        rw [hres] at hinner
        cases hinner
      · exact ih lastError p hp2 e hpe hnu hni

/-- C3: one `create_limit_order` call submits at most
`|symbol formats| * |size fields|` placement requests, and every submission
that is followed by a further submission was answered by a rejection whose
message matches one of the two recognized retry patterns; and whenever one
of the submitted attempts was answered by a rejection indicating neither an
unrecognized parameter nor an invalid symbol, that very error is the raised
result of the whole call — so such a rejection is surfaced immediately,
with no further request submitted. -/
theorem create_limit_order_bounded {R : Type} (submit : String → String → Except String R)
    (formatSymbol : String → String) :
    (create_limit_order_negotiation submit formatSymbol).2.length
      ≤ SYMBOL_FORMATS.length * ORDER_SIZE_FIELDS.length ∧
    (∀ p ∈ (create_limit_order_negotiation submit formatSymbol).2.dropLast,
      RecogAttempt submit p) ∧
    ∀ p ∈ (create_limit_order_negotiation submit formatSymbol).2, ∀ e,
      submit p.1 p.2 = Except.error e →
      hasSubstr UNEXPECTED_PARAM_MSG e = false →
      hasSubstr INVALID_SYMBOL_MSG e = false →
      (create_limit_order_negotiation submit formatSymbol).1 = NegResult.raised e :=
  ⟨tryFormats_trace_length submit formatSymbol ORDER_SIZE_FIELDS SYMBOL_FORMATS.getLast?
      SYMBOL_FORMATS none,
   tryFormats_dropLast_recog submit formatSymbol ORDER_SIZE_FIELDS SYMBOL_FORMATS.getLast?
      SYMBOL_FORMATS none,
   tryFormats_neither_raises submit formatSymbol ORDER_SIZE_FIELDS SYMBOL_FORMATS.getLast?
      SYMBOL_FORMATS none⟩

/-- C2 counterexample: when every submission is rejected with a message
indicating an unrecognized parameter (and not an invalid symbol), the
negotiation exhausts the size-field candidates of the *first* symbol format
and then surfaces the error — it does not advance to the next symbol-format
candidate even though three candidates remain. -/
theorem negotiation_last_field_cex :
    hasSubstr UNEXPECTED_PARAM_MSG cexMsg = true ∧
    hasSubstr INVALID_SYMBOL_MSG cexMsg = false ∧
    SYMBOL_FORMATS.length = 4 ∧
    create_limit_order_negotiation cexSubmit id =
      (NegResult.raised cexMsg,
       [("dash", "quantity"), ("dash", "amount"), ("dash", "volume")]) :=
  ⟨by decide, by decide, by decide, by decide⟩

/-- C2 amended: on a rejection indicating an unrecognized parameter when no
further size-field candidates remain, the loop falls through to the
invalid-symbol check; if the message does not also indicate an invalid
symbol, the error is surfaced immediately rather than advancing to the next
symbol-format candidate. -/
theorem tryFields_last_field_unrecognized {R : Type}
    (submit : String → String → Except String R) (fsym : String)
    (total : ℕ) (isLastFormat : Bool) (idx : ℕ) (f e : String)
    (hsub : submit fsym f = Except.error e)
    (hup : hasSubstr UNEXPECTED_PARAM_MSG e = true)
    (hlast : ¬ idx < total - 1)
    (hninv : hasSubstr INVALID_SYMBOL_MSG e = false) :
    tryFields submit fsym total isLastFormat idx [f]
      = (InnerRes.raised e, [(fsym, f)]) := by
  have h1 : decide (idx < total - 1) = false := decide_eq_false hlast
  simp [tryFields, hsub, hup, hninv, h1]

/-- Witness for `tryFields_last_field_unrecognized` at the counterexample
message, the last size-field candidate and a non-final symbol format. -/
theorem tryFields_last_field_unrecognized_witness :
    tryFields cexSubmit "dash" 3 false 2 ["volume"]
      = (InnerRes.raised cexMsg, [("dash", "volume")]) :=
  tryFields_last_field_unrecognized cexSubmit "dash" 3 false 2 "volume" cexMsg
    rfl (by decide) (by omega) (by decide)

/-! ### Reconciliation: characterization of one pass -/

theorem syncOne_eq (env : Env) (e : OrderRecord) (k : ℕ) :
    syncOne env e k =
      if trigB env e then
        ⟨entryTrig env k e, some (sellRecordFor env k e), some (sellReqFor e), true, k + 1⟩
      else
        ⟨entryPlain env e, none, none,
         upperStr (env.statusOf e.order_id) != e.status, k⟩ := by
  by_cases hst : (upperStr (env.statusOf e.order_id) != e.status) = true
  · by_cases ht : trigB env e = true
    · simp only [trigB] at ht
      simp [syncOne, trigB, hst, ht, entryTrig, entryPlain, sellRecordFor, sellReqFor]
    · simp only [trigB] at ht
      simp [syncOne, trigB, hst, ht, entryTrig, entryPlain, sellRecordFor, sellReqFor]
  · have heq : upperStr (env.statusOf e.order_id) = e.status := by
      simpa using hst
    by_cases ht : trigB env e = true
    · simp only [trigB] at ht
      simp only [syncOne, trigB, hst, heq, if_false, Bool.false_eq_true, ite_false]
      rw [heq] at ht
      simp [ht, entryTrig, entryPlain, sellRecordFor, sellReqFor, heq]
    · simp only [trigB] at ht
      simp only [syncOne, trigB, hst, heq, if_false, Bool.false_eq_true, ite_false]
      rw [heq] at ht
      simp [ht, entryTrig, entryPlain, sellRecordFor, sellReqFor, heq]

theorem syncEntries_cons_trig (env : Env) (e : OrderRecord) (rest : List OrderRecord)
    (k : ℕ) (ht : trigB env e = true) :
    syncEntries env (e :: rest) k =
      ⟨entryTrig env k e :: (syncEntries env rest (k + 1)).entries,
       sellRecordFor env k e :: (syncEntries env rest (k + 1)).sells,
       sellReqFor e :: (syncEntries env rest (k + 1)).reqs,
       true,
       (syncEntries env rest (k + 1)).next⟩ := by
  rw [syncEntries, syncOne_eq, if_pos ht]
  rfl

theorem syncEntries_cons_plain (env : Env) (e : OrderRecord) (rest : List OrderRecord)
    (k : ℕ) (ht : trigB env e = false) :
    syncEntries env (e :: rest) k =
      ⟨entryPlain env e :: (syncEntries env rest k).entries,
       (syncEntries env rest k).sells,
       (syncEntries env rest k).reqs,
       ((upperStr (env.statusOf e.order_id) != e.status) || (syncEntries env rest k).changed),
       (syncEntries env rest k).next⟩ := by
  rw [syncEntries, syncOne_eq, if_neg (by simp [ht])]
  rfl

theorem forall2_mem_right {α β : Type _} {R : α → β → Prop} :
    ∀ {l1 : List α} {l2 : List β}, List.Forall₂ R l1 l2 →
      ∀ b ∈ l2, ∃ a ∈ l1, R a b := by
  intro l1 l2 h
  induction h with
  | nil => intro b hb; simp at hb
  | cons hab _ ih =>
    intro b hb
    rcases List.mem_cons.mp hb with hb0 | hb1
    · subst hb0; exact ⟨_, List.mem_cons_self _ _, hab⟩
    · obtain ⟨a, ha, har⟩ := ih b hb1
      exact ⟨a, List.mem_cons_of_mem _ ha, har⟩

theorem forall2_mem_left {α β : Type _} {R : α → β → Prop} :
    ∀ {l1 : List α} {l2 : List β}, List.Forall₂ R l1 l2 →
      ∀ a ∈ l1, ∃ b ∈ l2, R a b := by
  intro l1 l2 h
  induction h with
  | nil => intro a ha; simp at ha
  | cons hab _ ih =>
    intro a ha
    rcases List.mem_cons.mp ha with ha0 | ha1
    · subst ha0; exact ⟨_, List.mem_cons_self _ _, hab⟩
    · obtain ⟨b, hb, hbr⟩ := ih a ha1
      exact ⟨b, List.mem_cons_of_mem _ hb, hbr⟩

theorem forall2_filter_length {α β : Type _} {R : α → β → Prop}
    {p : α → Bool} {q : β → Bool} :
    ∀ {l1 : List α} {l2 : List β}, List.Forall₂ R l1 l2 →
      (∀ a b, R a b → q b = p a) →
      (l2.filter q).length = (l1.filter p).length := by
  intro l1 l2 h hpq
  induction h with
  | nil => rfl
  | @cons a b l1' l2' hab _ ih =>
    rw [List.filter_cons, List.filter_cons, hpq a b hab]
    cases p a <;> simp [ih]

theorem forall2_map_eq {α β γ : Type _} {R : α → β → Prop}
    {f : α → γ} {g : β → γ} :
    ∀ {l1 : List α} {l2 : List β}, List.Forall₂ R l1 l2 →
      (∀ a b, R a b → g b = f a) →
      l2.map g = l1.map f := by
  intro l1 l2 h hfg
  induction h with
  | nil => rfl
  | @cons a b l1' l2' hab _ ih =>
    simp only [List.map_cons, hfg a b hab, ih]

theorem pairRel_mono {env : Env} {sells sells' : List OrderRecord}
    {m m' : ℕ} {e e' : OrderRecord} (hsub : ∀ s ∈ sells, s ∈ sells')
    (hm : m ≤ m') (h : PairRel env sells m e e') : PairRel env sells' m' e e' :=
  { h with
    linkTrig := fun ht => by
      obtain ⟨j, hj, hlink, s, hs, hsid, hside⟩ := h.linkTrig ht
      exact ⟨j, lt_of_lt_of_le hj hm, hlink, s, hsub s hs, hsid, hside⟩ }

theorem syncEntries_pairs (env : Env) :
    ∀ (L : List OrderRecord) (k : ℕ),
      List.Forall₂ (PairRel env (syncEntries env L k).sells (k + L.length))
        L (syncEntries env L k).entries := by
  intro L
  induction L with
  | nil => intro k; exact List.Forall₂.nil
  | cons e rest ih =>
    intro k
    by_cases ht : trigB env e = true
    · rw [syncEntries_cons_trig env e rest k ht]
      refine List.Forall₂.cons ?_ ?_
      · refine { idEq := rfl, sideEq := rfl, symbolEq := rfl, amountEq := rfl,
                 priceEq := rfl, createdEq := rfl, noteEq := rfl, statusEq := rfl,
                 linkPlain := fun hf => (nomatch hf.symm.trans ht),
                 linkTrig := fun _ => ?_ }
        refine ⟨k, by simp, rfl, sellRecordFor env k e, List.mem_cons_self _ _, rfl, ?_⟩
        show lowerStr "sell" = "sell"
        decide
      · refine List.Forall₂.imp ?_ (ih (k + 1))
        intro a b hab
        refine pairRel_mono ?_ ?_ hab
        · exact fun s hs => List.mem_cons_of_mem _ hs
        · simp only [List.length_cons]
          omega
    · have ht' : trigB env e = false := by
        cases h : trigB env e
        · rfl
        · exact absurd h ht
      rw [syncEntries_cons_plain env e rest k ht']
      refine List.Forall₂.cons ?_ ?_
      · exact { idEq := rfl, sideEq := rfl, symbolEq := rfl, amountEq := rfl,
                priceEq := rfl, createdEq := rfl, noteEq := rfl, statusEq := rfl,
                linkPlain := fun _ => rfl,
                linkTrig := fun htr => (nomatch ht'.symm.trans htr) }
      · refine List.Forall₂.imp ?_ (ih k)
        intro a b hab
        refine pairRel_mono (fun s hs => hs) ?_ hab
        simp only [List.length_cons]
        omega

theorem syncEntries_sells_side (env : Env) :
    ∀ (L : List OrderRecord) (k : ℕ),
      ∀ s ∈ (syncEntries env L k).sells, lowerStr s.side = "sell" := by
  intro L
  induction L with
  | nil => intro k s hs; simp [syncEntries] at hs
  | cons e rest ih =>
    intro k s hs
    by_cases ht : trigB env e = true
    · rw [syncEntries_cons_trig env e rest k ht] at hs
      rcases List.mem_cons.mp hs with hs0 | hs1
      · subst hs0
        show lowerStr "sell" = "sell"
        decide
      · exact ih (k + 1) s hs1
    · have ht' : trigB env e = false := by
        cases h : trigB env e
        · rfl
        · exact absurd h ht
      rw [syncEntries_cons_plain env e rest k ht'] at hs
      exact ih k s hs

theorem syncEntries_sells_linked_map (env : Env) :
    ∀ (L : List OrderRecord) (k : ℕ),
      (syncEntries env L k).sells.map (fun s => s.linked_order_id)
        = (L.filter (trigB env)).map (fun e => some e.order_id) := by
  intro L
  induction L with
  | nil => intro k; rfl
  | cons e rest ih =>
    intro k
    by_cases ht : trigB env e = true
    · rw [syncEntries_cons_trig env e rest k ht, List.filter_cons, if_pos ht]
      simp only [List.map_cons, ih (k + 1)]
      rfl
    · have ht' : trigB env e = false := by
        cases h : trigB env e
        · rfl
        · exact absurd h ht
      rw [syncEntries_cons_plain env e rest k ht', List.filter_cons,
        if_neg (by simp [ht'])]
      exact ih k

theorem syncEntries_sell_ids (env : Env) :
    ∀ (L : List OrderRecord) (k : ℕ), ∃ js : List ℕ,
      (syncEntries env L k).sells.map (fun s => s.order_id)
          = js.map (fun j => (env.createResp j).1) ∧
      js.Pairwise (· < ·) ∧ ∀ j ∈ js, k ≤ j ∧ j < k + L.length := by
  intro L
  induction L with
  | nil => intro k; exact ⟨[], rfl, List.Pairwise.nil, by simp⟩
  | cons e rest ih =>
    intro k
    by_cases ht : trigB env e = true
    · obtain ⟨js, hmap, hpw, hbound⟩ := ih (k + 1)
      refine ⟨k :: js, ?_, ?_, ?_⟩
      · rw [syncEntries_cons_trig env e rest k ht]
        simp only [List.map_cons, hmap]
        rfl
      · refine List.pairwise_cons.mpr ⟨fun j hj => ?_, hpw⟩
        have := (hbound j hj).1
        omega
      · intro j hj
        rcases List.mem_cons.mp hj with hj0 | hj1
        · subst hj0; simp
        · have := hbound j hj1
          simp only [List.length_cons]
          omega
    · have ht' : trigB env e = false := by
        cases h : trigB env e
        · rfl
        · exact absurd h ht
      obtain ⟨js, hmap, hpw, hbound⟩ := ih k
      refine ⟨js, ?_, hpw, ?_⟩
      · rw [syncEntries_cons_plain env e rest k ht']
        exact hmap
      · intro j hj
        have := hbound j hj
        simp only [List.length_cons]
        omega

theorem syncEntries_unchanged (env : Env) :
    ∀ (L : List OrderRecord) (k : ℕ), (syncEntries env L k).changed = false →
      (syncEntries env L k).entries = L ∧ (syncEntries env L k).sells = [] := by
  intro L
  induction L with
  | nil => intro k _; exact ⟨rfl, rfl⟩
  | cons e rest ih =>
    intro k hch
    by_cases ht : trigB env e = true
    · rw [syncEntries_cons_trig env e rest k ht] at hch
      cases hch
    · have ht' : trigB env e = false := by
        cases h : trigB env e
        · rfl
        · exact absurd h ht
      rw [syncEntries_cons_plain env e rest k ht'] at hch ⊢
      simp only [Bool.or_eq_false_iff] at hch
      obtain ⟨hst, hrest⟩ := hch
      have hstat : upperStr (env.statusOf e.order_id) = e.status := by
        simpa using hst
      obtain ⟨hent, hsells⟩ := ih k hrest
      refine ⟨?_, hsells⟩
      rw [hent]
      have : entryPlain env e = e := by
        unfold entryPlain
        rw [hstat]
      rw [this]

theorem sync_ledger_eq (env : Env) (L : List OrderRecord) :
    sync_ledger env L
      = (syncEntries env L 0).entries ++ (syncEntries env L 0).sells := by
  unfold sync_ledger sync_orders
  cases L with
  | nil => rfl
  | cons e rest =>
    simp only [List.isEmpty_cons, if_false, Bool.false_eq_true, ite_false]
    by_cases hch : (syncEntries env (e :: rest) 0).changed = true
    · simp [hch]
    · have hch' : (syncEntries env (e :: rest) 0).changed = false := by
        cases h : (syncEntries env (e :: rest) 0).changed
        · rfl
        · exact absurd h hch
      obtain ⟨hent, hsells⟩ := syncEntries_unchanged env (e :: rest) 0 hch'
      simp [hch', hent, hsells]

theorem syncEntries_entries_ids (env : Env) :
    ∀ (L : List OrderRecord) (k : ℕ),
      idsOf (syncEntries env L k).entries = idsOf L := by
  intro L
  induction L with
  | nil => intro k; rfl
  | cons e rest ih =>
    intro k
    by_cases ht : trigB env e = true
    · rw [syncEntries_cons_trig env e rest k ht]
      simp only [idsOf, List.map_cons]
      rw [show (entryTrig env k e).order_id = e.order_id from rfl]
      have := ih (k + 1)
      simp only [idsOf] at this
      rw [this]
    · have ht' : trigB env e = false := by
        cases h : trigB env e
        · rfl
        · exact absurd h ht
      rw [syncEntries_cons_plain env e rest k ht']
      simp only [idsOf, List.map_cons]
      rw [show (entryPlain env e).order_id = e.order_id from rfl]
      have := ih k
      simp only [idsOf] at this
      rw [this]

theorem syncEntries_sellsLinked_count (env : Env) (b : String) :
    ∀ (L : List OrderRecord) (k : ℕ),
      ((syncEntries env L k).sells.filter
          (fun s => s.linked_order_id == some b)).length
        = ((L.filter (trigB env)).filter (fun e => e.order_id == b)).length := by
  intro L
  induction L with
  | nil => intro k; rfl
  | cons e rest ih =>
    intro k
    by_cases ht : trigB env e = true
    · rw [syncEntries_cons_trig env e rest k ht]
      rw [show List.filter (trigB env) (e :: rest) = e :: List.filter (trigB env) rest
        from by rw [List.filter_cons, if_pos ht]]
      rw [List.filter_cons, List.filter_cons]
      have hbeq : ((sellRecordFor env k e).linked_order_id == some b)
          = (e.order_id == b) := rfl
      rw [hbeq]
      cases heb : (e.order_id == b) <;> simp [ih (k + 1)]
    · have ht' : trigB env e = false := by
        cases h : trigB env e
        · rfl
        · exact absurd h ht
      rw [syncEntries_cons_plain env e rest k ht', List.filter_cons,
        if_neg (by simp [ht'])]
      exact ih k

theorem bool_eq_false_of_ne_true {b : Bool} (h : ¬ b = true) : b = false := by
  cases b
  · rfl
  · exact absurd rfl h

theorem filter_filter_id_nil (xs : List OrderRecord) (q : OrderRecord → Bool)
    (b : String) (hb : b ∉ idsOf xs) :
    ((xs.filter q).filter fun y => y.order_id == b) = [] := by
  apply List.filter_eq_nil.mpr
  intro y hy
  have hyx : y ∈ xs := List.mem_of_mem_filter hy
  have hne : y.order_id ≠ b := by
    intro h
    exact hb (h ▸ List.mem_map_of_mem (fun r => r.order_id) hyx)
  simp [hne]

theorem unique_id_filter_count (q : OrderRecord → Bool) :
    ∀ (L : List OrderRecord), (idsOf L).Nodup → ∀ e ∈ L,
      ((L.filter q).filter fun y => y.order_id == e.order_id).length
        = if q e then 1 else 0 := by
  intro L
  induction L with
  | nil => intro _ e he; simp at he
  | cons x xs ih =>
    intro hnd e he
    have hx : x.order_id ∉ idsOf xs := (List.nodup_cons.mp hnd).1
    have hnd' : (idsOf xs).Nodup := (List.nodup_cons.mp hnd).2
    rcases List.mem_cons.mp he with he0 | he1
    · subst he0
      rw [List.filter_cons]
      cases hq : q e
      · simp only [Bool.false_eq_true, if_false]
        rw [filter_filter_id_nil xs q e.order_id hx]
        rfl
      · simp only [if_true]
        rw [List.filter_cons, if_pos (by simp),
          filter_filter_id_nil xs q e.order_id hx]
        rfl
    · have hne : x.order_id ≠ e.order_id := by
        intro h
        exact hx (h ▸ List.mem_map_of_mem (fun r => r.order_id) he1)
      rw [List.filter_cons]
      cases hq : q x
      · simp only [Bool.false_eq_true, if_false]
        exact ih hnd' e he1
      · simp only [if_true]
        rw [List.filter_cons, if_neg (by simp [hne])]
        exact ih hnd' e he1

/-- One reconciliation run preserves the ledger invariant and establishes
the linked-sell property for every buy record whose final status is
`FILLED`. -/
theorem sync_ledger_preserves (env : Env) (L : List OrderRecord)
    (hInv : LedgerInv L) (hF : FreshFor env L) :
    LedgerInv (sync_ledger env L) ∧
    ∀ r ∈ sync_ledger env L, lowerStr r.side = "buy" → r.status = "FILLED" →
      linkFalsy r.linked_order_id = false ∧
      (∃ s ∈ sync_ledger env L, lowerStr s.side = "sell" ∧
        some s.order_id = r.linked_order_id) ∧
      (sellsLinkedTo (sync_ledger env L) r.order_id).length = 1 := by
  obtain ⟨hnodup, hresolve, hcount⟩ := hInv
  have hM := sync_ledger_eq env L
  set E := (syncEntries env L 0).entries with hE
  set S := (syncEntries env L 0).sells with hS
  have hpairs : List.Forall₂ (PairRel env S L.length) L E := by
    have := syncEntries_pairs env L 0
    simpa using this
  have hids : idsOf E = idsOf L := syncEntries_entries_ids env L 0
  have hsside : ∀ s ∈ S, lowerStr s.side = "sell" := syncEntries_sells_side env L 0
  obtain ⟨js, hjsmap, hjspw, hjsbound⟩ := syncEntries_sell_ids env L 0
  have hjsub : ∀ j ∈ js, j < L.length := by
    intro j hj
    have := (hjsbound j hj).2
    omega
  have hpwne : js.Pairwise
      (fun a b => (env.createResp a).1 ≠ (env.createResp b).1) := by
    refine List.Pairwise.imp_of_mem ?_ hjspw
    intro a b ha hb hab
    exact (hF b (hjsub b hb)).2.2 a hab
  have hSidsNodup : (idsOf S).Nodup := by
    show (S.map (fun r => r.order_id)).Pairwise (· ≠ ·)
    rw [hjsmap]
    exact List.pairwise_map.mpr hpwne
  have hfreshS : ∀ a ∈ idsOf S, a ∉ idsOf L := by
    intro a ha
    have ha' : a ∈ js.map (fun j => (env.createResp j).1) := by
      rw [← hjsmap]
      exact ha
    obtain ⟨j, hj, rfl⟩ := List.mem_map.mp ha'
    exact (hF j (hjsub j hj)).1
  have hMnodup : (idsOf (E ++ S)).Nodup := by
    show ((E ++ S).map (fun r => r.order_id)).Nodup
    rw [List.map_append]
    refine List.Nodup.append ?_ hSidsNodup ?_
    · show (idsOf E).Nodup
      rw [hids]
      exact hnodup
    · intro a haE haS
      exact hfreshS a haS (hids ▸ haE)
  have hfiltE : ∀ b : String,
      (E.filter (fun y => lowerStr y.side == "sell"
          && y.linked_order_id == some b)).length
        = (L.filter (fun y => lowerStr y.side == "sell"
          && y.linked_order_id == some b)).length := by
    intro b
    refine forall2_filter_length hpairs ?_
    intro a a' hrel
    by_cases ht : trigB env a = true
    · have haside : lowerStr a.side = "buy" := by
        unfold trigB at ht
        rw [Bool.and_eq_true, Bool.and_eq_true] at ht
        have := ht.1.1
        rwa [beq_iff_eq] at this
      have h1 : (lowerStr a.side == "sell") = false := by
        rw [haside]
        decide
      have h2 : (lowerStr a'.side == "sell") = false := by
        rw [hrel.sideEq, haside]
        decide
      rw [h1, h2]
      simp
    · have ht' := bool_eq_false_of_ne_true ht
      rw [hrel.sideEq, hrel.linkPlain ht']
  have hfiltS : ∀ b : String,
      (S.filter (fun y => lowerStr y.side == "sell"
          && y.linked_order_id == some b)).length
        = ((L.filter (trigB env)).filter (fun e => e.order_id == b)).length := by
    intro b
    have hcongr : ∀ s ∈ S, (lowerStr s.side == "sell" && s.linked_order_id == some b)
        = (s.linked_order_id == some b) := by
      intro s hs
      rw [hsside s hs]
      simp
    rw [List.filter_congr hcongr]
    exact syncEntries_sellsLinked_count env b L 0
  have hresolveM : ∀ r ∈ E ++ S, lowerStr r.side = "buy" →
      linkFalsy r.linked_order_id = false →
      ∃ s ∈ E ++ S, lowerStr s.side = "sell" ∧
        some s.order_id = r.linked_order_id := by
    intro r hr hbuy hlink
    rcases List.mem_append.mp hr with hrE | hrS
    · obtain ⟨a, haL, hrel⟩ := forall2_mem_right hpairs r hrE
      by_cases ht : trigB env a = true
      · obtain ⟨j, hj, hlinkr, s, hsS, hsid, hside⟩ := hrel.linkTrig ht
        refine ⟨s, List.mem_append_right _ hsS, hside, ?_⟩
        rw [hlinkr, hsid]
      · have ht' := bool_eq_false_of_ne_true ht
        have hlinkeq := hrel.linkPlain ht'
        have habuy : lowerStr a.side = "buy" := by
          rw [← hrel.sideEq]
          exact hbuy
        have halink : linkFalsy a.linked_order_id = false := by
          rw [← hlinkeq]
          exact hlink
        obtain ⟨s0, hs0L, hs0side, hs0id⟩ := hresolve a haL habuy halink
        obtain ⟨s0', hs0'E, hrel0⟩ := forall2_mem_left hpairs s0 hs0L
        refine ⟨s0', List.mem_append_left _ hs0'E, ?_, ?_⟩
        · rw [hrel0.sideEq]
          exact hs0side
        · rw [hrel0.idEq, hlinkeq]
          exact hs0id
    · have := hsside r hrS
      exact absurd (hbuy.symm.trans this) (by decide)
  have hcountM : ∀ r ∈ E ++ S, lowerStr r.side = "buy" →
      (sellsLinkedTo (E ++ S) r.order_id).length
        = if linkFalsy r.linked_order_id then 0 else 1 := by
    intro r hr hbuy
    rcases List.mem_append.mp hr with hrE | hrS
    · obtain ⟨a, haL, hrel⟩ := forall2_mem_right hpairs r hrE
      have habuy : lowerStr a.side = "buy" := by
        rw [← hrel.sideEq]
        exact hbuy
      have hsplit : (sellsLinkedTo (E ++ S) r.order_id).length
          = (E.filter (fun y => lowerStr y.side == "sell"
              && y.linked_order_id == some r.order_id)).length
            + (S.filter (fun y => lowerStr y.side == "sell"
              && y.linked_order_id == some r.order_id)).length := by
        unfold sellsLinkedTo
        rw [List.filter_append, List.length_append]
      rw [hsplit, hfiltE r.order_id, hfiltS r.order_id, hrel.idEq]
      have hLc : (L.filter (fun y => lowerStr y.side == "sell"
          && y.linked_order_id == some a.order_id)).length
          = if linkFalsy a.linked_order_id then 0 else 1 := hcount a haL habuy
      have hSc : ((L.filter (trigB env)).filter
          (fun y => y.order_id == a.order_id)).length
          = if trigB env a then 1 else 0 :=
        unique_id_filter_count (trigB env) L hnodup a haL
      rw [hLc, hSc]
      by_cases ht : trigB env a = true
      · have hfal : linkFalsy a.linked_order_id = true := by
          unfold trigB at ht
          rw [Bool.and_eq_true] at ht
          exact ht.2
        obtain ⟨j, hj, hlinkr, s, hsS, hsid, hside⟩ := hrel.linkTrig ht
        have hjr : (env.createResp j).1 ≠ "" := (hF j hj).2.1
        have hrfal : linkFalsy r.linked_order_id = false := by
          rw [hlinkr]
          show ((env.createResp j).1 == "") = false
          exact beq_eq_false_iff_ne.mpr hjr
        rw [hfal, hrfal, ht]
        simp
      · have ht' := bool_eq_false_of_ne_true ht
        have hlinkeq := hrel.linkPlain ht'
        rw [ht', hlinkeq]
        simp
    · have := hsside r hrS
      exact absurd (hbuy.symm.trans this) (by decide)
  have hfilledM : ∀ r ∈ E ++ S, lowerStr r.side = "buy" → r.status = "FILLED" →
      linkFalsy r.linked_order_id = false := by
    intro r hr hbuy hstat
    rcases List.mem_append.mp hr with hrE | hrS
    · obtain ⟨a, haL, hrel⟩ := forall2_mem_right hpairs r hrE
      have habuy : lowerStr a.side = "buy" := by
        rw [← hrel.sideEq]
        exact hbuy
      by_cases ht : trigB env a = true
      · obtain ⟨j, hj, hlinkr, s, hsS, hsid, hside⟩ := hrel.linkTrig ht
        have hjr : (env.createResp j).1 ≠ "" := (hF j hj).2.1
        rw [hlinkr]
        show ((env.createResp j).1 == "") = false
        exact beq_eq_false_iff_ne.mpr hjr
      · have ht' := bool_eq_false_of_ne_true ht
        have hAside : (lowerStr a.side == "buy") = true := by
          rw [beq_iff_eq]
          exact habuy
        have hAstat : (upperStr (env.statusOf a.order_id) == "FILLED") = true := by
          rw [beq_iff_eq, ← hrel.statusEq]
          exact hstat
        have hfal : linkFalsy a.linked_order_id = false := by
          unfold trigB at ht'
          rw [hAside, hAstat] at ht'
          simpa using ht'
        rw [hrel.linkPlain ht']
        exact hfal
    · have := hsside r hrS
      exact absurd (hbuy.symm.trans this) (by decide)
  rw [hM]
  refine ⟨⟨hMnodup, hresolveM, hcountM⟩, ?_⟩
  intro r hr hbuy hstat
  have hrfal := hfilledM r hr hbuy hstat
  have hc := hcountM r hr hbuy
  rw [hrfal] at hc
  exact ⟨hrfal, hresolveM r hr hbuy hrfal, by simpa using hc⟩

/-- C1: over any sequence of reconciliation runs on a ledger satisfying the
invariant, with fresh exchange-assigned ids, the invariant is preserved;
and after at least one completed run, every buy record whose status is
`FILLED` carries a non-empty linked-order reference that names a sell
record present in the same ledger, and the ledger holds exactly one sell
record linked to that buy — never zero once filled, never more than one. -/
theorem reconciliation_linked_sell_invariant :
    ∀ (runs : List Env) (L0 : List OrderRecord),
      LedgerInv L0 → FreshRuns runs L0 →
      LedgerInv (runsFold runs L0) ∧
      (runs ≠ [] → ∀ r ∈ runsFold runs L0,
        lowerStr r.side = "buy" → r.status = "FILLED" →
        linkFalsy r.linked_order_id = false ∧
        (∃ s ∈ runsFold runs L0, lowerStr s.side = "sell" ∧
          some s.order_id = r.linked_order_id) ∧
        (sellsLinkedTo (runsFold runs L0) r.order_id).length = 1) := by
  intro runs
  induction runs with
  | nil =>
    intro L0 hInv _
    exact ⟨hInv, fun h => absurd rfl h⟩
  | cons env rest ih =>
    intro L0 hInv hFresh
    simp only [FreshRuns] at hFresh
    obtain ⟨hF, hFrest⟩ := hFresh
    have hstep := sync_ledger_preserves env L0 hInv hF
    cases rest with
    | nil => exact ⟨hstep.1, fun _ => hstep.2⟩
    | cons env2 rest2 =>
      have hrec := ih (sync_ledger env L0) hstep.1 hFrest
      exact ⟨hrec.1, fun _ => hrec.2 (by simp)⟩

/-- Witness for `reconciliation_linked_sell_invariant`: one run over a
one-record ledger holding a `NEW` unlinked buy, polled as `FILLED`. -/
theorem reconciliation_linked_sell_invariant_witness :
    LedgerInv (runsFold [wEnvFilled] [wBuy]) ∧
    ([wEnvFilled] ≠ [] → ∀ r ∈ runsFold [wEnvFilled] [wBuy],
      lowerStr r.side = "buy" → r.status = "FILLED" →
      linkFalsy r.linked_order_id = false ∧
      (∃ s ∈ runsFold [wEnvFilled] [wBuy], lowerStr s.side = "sell" ∧
        some s.order_id = r.linked_order_id) ∧
      (sellsLinkedTo (runsFold [wEnvFilled] [wBuy]) r.order_id).length = 1) :=
  reconciliation_linked_sell_invariant [wEnvFilled] [wBuy]
    (by unfold LedgerInv sellsLinkedTo idsOf; decide)
    (by show FreshFor wEnvFilled [wBuy] ∧ True
        exact ⟨by unfold FreshFor idsOf; decide, trivial⟩)

/-- C8: a stored `NEW` unlinked buy whose remote status is still `NEW` on
the first run is left untouched; when the second run polls it as `FILLED`,
that run produces exactly one new sell record priced at the quantized
`buy price * 1.02` for the same (quantized) amount, links it back to the
buy, sets the linked-order field of the buy record to the id of the new sell, and
persists both in the same resulting ledger. -/
theorem sync_new_to_filled (env1 env2 : Env) (b : OrderRecord)
    (hside : b.side = "buy") (hstat : b.status = "NEW")
    (hlink : b.linked_order_id = none)
    (h1 : upperStr (env1.statusOf b.order_id) = "NEW")
    (h2 : upperStr (env2.statusOf b.order_id) = "FILLED")
    (hamt : quantize b.amount = b.amount) :
    sync_ledger env1 [b] = [b] ∧
    sync_ledger env2 (sync_ledger env1 [b]) =
      [{ b with status := "FILLED", linked_order_id := some (env2.createResp 0).1 },
       { order_id := (env2.createResp 0).1, symbol := b.symbol, side := "sell",
         amount := b.amount, price := quantize (b.price * (102 / 100)),
         status := upperStr (env2.createResp 0).2, created_at := env2.now,
         note := some (sellNote b.order_id), linked_order_id := some b.order_id }] := by
  have ht1 : trigB env1 b = false := by
    unfold trigB
    rw [hside, h1, hlink]
    decide
  have hfirst : sync_ledger env1 [b] = [b] := by
    rw [sync_ledger_eq, syncEntries_cons_plain env1 b [] 0 ht1]
    have hb : entryPlain env1 b = b := by
      unfold entryPlain
      rw [h1, ← hstat]
    simp [syncEntries, hb]
  refine ⟨hfirst, ?_⟩
  rw [hfirst]
  have ht2 : trigB env2 b = true := by
    unfold trigB
    rw [hside, h2, hlink]
    decide
  rw [sync_ledger_eq, syncEntries_cons_trig env2 b [] 0 ht2]
  have hmk : markup_price b.price SELL_MARKUP = quantize (b.price * (102 / 100)) := by
    unfold markup_price SELL_MARKUP
    norm_num
  simp [syncEntries, entryTrig, sellRecordFor, h2, hamt, hmk]

/-- Witness for `sync_new_to_filled` at a concrete buy record and two
concrete environments. -/
theorem sync_new_to_filled_witness :
    sync_ledger wEnvNew [wBuy] = [wBuy] ∧
    sync_ledger wEnvFilled (sync_ledger wEnvNew [wBuy]) =
      [{ wBuy with
           status := "FILLED",
           linked_order_id := some (wEnvFilled.createResp 0).1 },
       { order_id := (wEnvFilled.createResp 0).1, symbol := wBuy.symbol,
         side := "sell", amount := wBuy.amount,
         price := quantize (wBuy.price * (102 / 100)),
         status := upperStr (wEnvFilled.createResp 0).2,
         created_at := wEnvFilled.now,
         note := some (sellNote wBuy.order_id),
         linked_order_id := some wBuy.order_id }] :=
  sync_new_to_filled wEnvNew wEnvFilled wBuy rfl rfl rfl (by decide) (by decide)
    (by with_unfolding_all decide)

/-- C9: the scripted run with balance 1000, best bid 0.5, the three
configured discounts and amount 10 succeeds: it submits exactly three buy
placement requests at the quantized prices 0.49, 0.475 and 0.46, the
required total is at most 1000, and the ledger gains exactly those three
records. -/
theorem run_auto_scenario :
    (run_auto wEnvNew "LTCUSDT" (some 10) []).1 = Except.ok () ∧
    (run_auto wEnvNew "LTCUSDT" (some 10) []).2.1.map (fun q => q.price)
      = [49 / 100, 475 / 1000, 46 / 100] ∧
    (run_auto wEnvNew "LTCUSDT" (some 10) []).2.1.map (fun q => q.side)
      = ["buy", "buy", "buy"] ∧
    (run_auto wEnvNew "LTCUSDT" (some 10) []).2.1.length = 3 ∧
    (run_auto wEnvNew "LTCUSDT" (some 10) []).2.2.length = 3 ∧
    (run_auto wEnvNew "LTCUSDT" (some 10) []).2.2.map (fun r => r.price)
      = [49 / 100, 475 / 1000, 46 / 100] ∧
    (AUTO_BUY_DISCOUNTS.map (fun d => discount_price (1 / 2) d * 10)).sum ≤ 1000 := by
  refine ⟨?_, ?_, ?_, ?_, ?_, ?_, ?_⟩
  · with_unfolding_all rfl
  · with_unfolding_all decide
  · with_unfolding_all decide
  · with_unfolding_all decide
  · with_unfolding_all decide
  · with_unfolding_all decide
  · with_unfolding_all decide

end BTLab
